import Mathlib

/-!
Verification of the s3fs adapter layer (jacoelho/s3fs): a shallow embedding of
the path normalizer, metadata resolver, directory lister and filesystem facade,
together with theorems settling the frozen claims about them.

Go strings are modelled as lists of characters; the external S3 client is
modelled at its interface boundary: each operation takes the client's
response(s) as explicit inputs and returns, besides its result, the list of
store requests it issued (its network trace).
-/

namespace S3fs

/-- Go strings, modelled as lists of characters. -/
abbrev Str := List Char

/-- Go `strings.Split s sep` for a one-character separator. -/
def splitSep (sep : Char) : Str → List Str
  | [] => [[]]
  | c :: cs =>
    match splitSep sep cs with
    | [] => [[]]
    | h :: t => if c = sep then [] :: h :: t else (c :: h) :: t

/-- Go `strings.Join l sep` for a one-character separator. -/
def joinSep (sep : Char) : List Str → Str
  | [] => []
  | [x] => x
  | x :: y :: rest => x ++ sep :: joinSep sep (y :: rest)

/-- Go byte-wise lexicographic `<` on strings. -/
def strLt : Str → Str → Bool
  | [], [] => false
  | [], _ :: _ => true
  | _ :: _, [] => false
  | a :: as, b :: bs => if a = b then strLt as bs else decide (a < b)

/-- The `".."` path element. -/
def dotdot : Str := ['.', '.']

/-- The element-stack core of Go `path.Clean`: processes the `/`-separated
elements of a path left to right; empty and `"."` elements are dropped, `".."`
pops the last retained real element when one is present, is dropped at the root
of a rooted path, and is retained otherwise.  This is the element-level
statement of the double-buffer loop in Go's `path.Clean`. -/
def cleanSegs (rooted : Bool) : List Str → List Str → List Str
  | [], out => out
  | seg :: rest, out =>
    if seg = [] ∨ seg = ['.'] then cleanSegs rooted rest out
    else if seg = dotdot then
      if out ≠ [] ∧ out.getLast? ≠ some dotdot then cleanSegs rooted rest out.dropLast
      else if rooted then cleanSegs rooted rest out
      else cleanSegs rooted rest (out ++ [dotdot])
    else cleanSegs rooted rest (out ++ [seg])

/-- Go `path.Clean`. -/
def pathClean (p : Str) : Str :=
  if p = [] then ['.']
  else
    let rooted : Bool := p.head? = some '/'
    let out := cleanSegs rooted (splitSep '/' p) []
    let r := (if rooted then ['/'] else []) ++ joinSep '/' out
    if r = [] then ['.'] else r

/-- `cleanPath` from fs.go: `path.Clean`, with `"."` and `"/"` collapsed to the
empty string and leading separators stripped. -/
def cleanPath (name : Str) : Str :=
  let c := pathClean name
  if c = ['.'] ∨ c = ['/'] then [] else c.dropWhile (· = '/')

/-- Go `path.Join`: joins the non-empty elements with `/` and cleans the
result; all-empty input yields the empty string. -/
def pathJoin (elems : List Str) : Str :=
  let ne := elems.filter (fun e => !e.isEmpty)
  if ne.isEmpty then [] else pathClean (joinSep '/' ne)

/-- Go `path.Base`. -/
def pathBase (p : Str) : Str :=
  if p = [] then ['.']
  else
    let q := (p.reverse.dropWhile (· = '/')).reverse
    let b := (q.reverse.takeWhile (fun c => c ≠ '/')).reverse
    if b = [] then ['/'] else b

/-- A retained real path element of a cleaned path: non-empty, not `"."`,
not `".."`, and separator-free. -/
def cleanElem (seg : Str) : Prop :=
  seg ≠ [] ∧ seg ≠ ['.'] ∧ seg ≠ dotdot ∧ '/' ∉ seg

/-- The shape invariant of the `cleanSegs` output stack: a run of `".."`
elements followed by retained real elements. -/
def CleanStack (out : List Str) : Prop :=
  ∃ k segs, out = List.replicate k dotdot ++ segs ∧ ∀ seg ∈ segs, cleanElem seg

/-- The `fs.ModeDir` bit of Go `io/fs`. -/
def modeDir : Nat := 2 ^ 31

/-- `baseName` from fs.go: the base of a key, together with `fs.ModeDir` when
the key ends in the path separator. -/
def baseName (name : Str) : Str × Nat :=
  if name.getLast? = some '/' then (pathBase name, modeDir) else (pathBase name, 0)

/-- `pathSeparator` from fs.go. -/
def pathSeparator : Str := ['/']

/-- `currentDirName` from fs.go. -/
def currentDirName : Str := ['.']

/-- `directoryFile` from fs.go: the default sentinel marker filename. -/
def directoryFileDefault : Str := ['.', 'k', 'e', 'e', 'p']

/-- `minPartSize` from fs.go. -/
def minPartSize : Int := 5 * 1024 * 1024

/-- Wall-clock instants (`time.Time`), threaded explicitly where the Go code
calls `time.Now()`. -/
abbrev Time := Nat

/-- `FileInfo` from fileinfo.go. -/
structure FileInfo where
  name : Str
  size : Int
  mode : Nat
  modTime : Time
deriving DecidableEq, Repr

/-- `directoryFileInfo` from fileinfo.go (mode `0o755 | fs.ModeDir`, size 0,
modification time `time.Now()`). -/
def directoryFileInfo (name : Str) (now : Time) : FileInfo :=
  { name := name, size := 0, mode := Nat.lor 0o755 modeDir, modTime := now }

/-- `regularFileInfo` from fileinfo.go (mode `0o644`). -/
def regularFileInfo (name : Str) (size : Int) (modTime : Time) : FileInfo :=
  { name := name, size := size, mode := 0o644, modTime := modTime }

/-- `FileInfo.IsDir` from fileinfo.go. -/
def FileInfo.isDir (i : FileInfo) : Bool := Nat.land i.mode modeDir != 0

/-- An opaque transport/service error from the store client (AWS SDK);
such an error never satisfies `errors.Is(err, fs.ErrNotExist)` etc. -/
structure Transport where
  code : Nat
deriving DecidableEq, Repr

/-- One listed object of a `ListObjectsV2` response (`types.Object`). -/
structure S3Object where
  key : Str
  size : Int
  lastModified : Option Time
deriving DecidableEq, Repr

/-- A `ListObjectsV2` response page: common prefixes and contents. -/
structure ListResult where
  commonPrefixes : List Str
  contents : List S3Object
deriving DecidableEq, Repr

/-- A request issued to the store client, recorded in each operation's
network trace. -/
inductive Request
  | listReq (bucket : Str) (pfx : Option Str) (delim : Option Str) (maxKeys : Option Nat)
  | putReq (bucket key : Str)
  | deleteReq (bucket key : Str)
  | copyReq (bucket key copySource : Str)
  | getReq (bucket key : Str) (rangeFrom : Option Int)
deriving DecidableEq, Repr

/-- Requests that mutate the store (put, delete, copy). -/
def Request.isMutation : Request → Bool
  | .putReq _ _ => true
  | .deleteReq _ _ => true
  | .copyReq _ _ _ => true
  | _ => false

/-- The sentinel error values of Go `io/fs` used by the code. -/
inductive Sentinel
  | errNotExist
  | errInvalid
  | errExist
  | errClosed
deriving DecidableEq, Repr

/-- The message of a wrapping `fmt.Errorf("...: %w", sentinel)` call site. -/
inductive ErrCtx
  | namedFileIsDirectory
  | fileAlreadyExists
  | dirAlreadyExists
  | cannotListFile
  | directoryNotEmpty
  | oldpathIsDirectory
  | newpathIsDirectory
  | createIsDirectory
  | seekOnlyForReading
deriving DecidableEq, Repr

/-- Go error values produced by the adapter: bare `io/fs` sentinels, wrapped
sentinels, `fs.PathError` values, and client errors passed through unchanged. -/
inductive FsErr
  | sentinel (s : Sentinel)
  | wrapped (ctx : ErrCtx) (s : Sentinel)
  | pathError (op : Str) (p : Str) (s : Sentinel)
  | transport (e : Transport)
deriving DecidableEq, Repr

/-- `errors.Is e target` for a sentinel target: true exactly when the error is
or wraps the sentinel. -/
def FsErr.is (e : FsErr) (s : Sentinel) : Bool :=
  match e with
  | .sentinel s2 => s2 = s
  | .wrapped _ s2 => s2 = s
  | .pathError _ _ s2 => s2 = s
  | .transport _ => false

/-- The `Fs` configuration record from fs.go (the `prefix` field is named
`fsPrefix`, `prefix` being reserved in Lean). -/
structure Fs where
  bucket : Str
  fsPrefix : Str
  timeout : Nat
  partSize : Int
  tempDir : Str
  directoryFile : Str
deriving DecidableEq, Repr

/-- `New` from fs.go with no options applied. -/
def Fs.new (bucket : Str) : Fs :=
  { bucket := bucket, fsPrefix := [], timeout := 0, partSize := minPartSize,
    tempDir := [], directoryFile := directoryFileDefault }

/-- `Fs.withPrefix` from fs.go: join the configured prefix with the given
segments and normalize. -/
def Fs.withPrefix (f : Fs) (names : List Str) : Str :=
  cleanPath (pathJoin (f.fsPrefix :: names))

/-- `Fs.StatWithContext` from fs.go: the root resolves to a synthetic
directory without any request; otherwise one `ListObjectsV2` request is issued
(prefix = derived key, delimiter = `/`, `MaxKeys = 1`) and its response decides
directory / file / not-found. -/
def Fs.statWithContext (f : Fs) (name : Str) (resp : Except Transport ListResult)
    (now : Time) : Except FsErr FileInfo × List Request :=
  if cleanPath name = [] then (.ok (directoryFileInfo currentDirName now), [])
  else
    let prefixedName := f.withPrefix [name]
    let req : Request := .listReq f.bucket (some prefixedName) (some pathSeparator) (some 1)
    match resp with
    | .error e => (.error (.transport e), [req])
    | .ok res =>
      if (prefixedName ++ pathSeparator) ∈ res.commonPrefixes then
        (.ok (directoryFileInfo (cleanPath name) now), [req])
      else
        match res.contents.find? (fun el => el.key = prefixedName) with
        | some el =>
          (.ok (regularFileInfo (cleanPath name) el.size (el.lastModified.getD now)), [req])
        | none => (.error (.sentinel .errNotExist), [req])

/-- A directory entry returned by the facade: either a `Directory` value or a
`File` value, each carrying its `FileInfo` (directory.go, file.go). -/
inductive DirEntry
  | dirE (info : FileInfo)
  | fileE (info : FileInfo)
deriving DecidableEq, Repr

/-- The `FileInfo` carried by an entry. -/
def DirEntry.info : DirEntry → FileInfo
  | .dirE i => i
  | .fileE i => i

/-- `Name()` of an entry. -/
def DirEntry.name (e : DirEntry) : Str := e.info.name

/-- `IsDir()` of an entry (delegates to its `FileInfo`). -/
def DirEntry.isDir (e : DirEntry) : Bool := e.info.isDir

/-- Whether the entry was constructed as a `File` value. -/
def DirEntry.isFileEntry : DirEntry → Bool
  | .fileE _ => true
  | .dirE _ => false

/-- `Fs.CreateDirWithContext` from fs.go: stat the path; an existing file or
an existing directory is an `fs.ErrExist` error; on NotFound the empty
sentinel marker object is uploaded under `name/<marker>`. -/
def Fs.createDirWithContext (f : Fs) (name : Str) (statResp : Except Transport ListResult)
    (putResp : Except Transport Unit) (now : Time) : Except FsErr DirEntry × List Request :=
  let st := f.statWithContext name statResp now
  match st.1 with
  | .error e =>
    if e.is .errNotExist then
      let req : Request := .putReq f.bucket (f.withPrefix [name, f.directoryFile])
      match putResp with
      | .error e2 => (.error (.transport e2), st.2 ++ [req])
      | .ok _ => (.ok (.dirE (directoryFileInfo (cleanPath name) now)), st.2 ++ [req])
    else (.error e, st.2)
  | .ok info =>
    if !info.isDir then (.error (.wrapped .fileAlreadyExists .errExist), st.2)
    else (.error (.wrapped .dirAlreadyExists .errExist), st.2)

/-- The body of the `page.CommonPrefixes` loop of `Fs.ReadDirWithContext`:
one directory entry per common prefix not seen before, named by its base. -/
def stepCommonPfx (now : Time) (st : List Str × List DirEntry) (p : Str) :
    List Str × List DirEntry :=
  let dir := (baseName p).1
  if dir ∈ st.1 then st
  else (dir :: st.1, st.2 ++ [DirEntry.dirE (directoryFileInfo dir now)])

/-- The body of the `page.Contents` loop of `Fs.ReadDirWithContext`: one file
entry per listed key whose base is non-empty, not the separator and not the
marker filename; keys ending in the separator are deduplicated against the
seen prefixes. -/
def stepContent (f : Fs) (now : Time) (st : List Str × List DirEntry) (obj : S3Object) :
    List Str × List DirEntry :=
  let nm := (baseName obj.key).1
  let mode := (baseName obj.key).2
  if nm = [] ∨ nm = pathSeparator ∨ nm = f.directoryFile then st
  else if Nat.land mode modeDir != 0 then
    if nm ∈ st.1 then st
    else (nm :: st.1,
      st.2 ++ [DirEntry.fileE (regularFileInfo nm obj.size (obj.lastModified.getD now))])
  else (st.1,
    st.2 ++ [DirEntry.fileE (regularFileInfo nm obj.size (obj.lastModified.getD now))])

/-- The processing of one response page: the common-prefix loop followed by
the contents loop. -/
def processPage (f : Fs) (now : Time) (st : List Str × List DirEntry) (page : ListResult) :
    List Str × List DirEntry :=
  page.contents.foldl (stepContent f now) (page.commonPrefixes.foldl (stepCommonPfx now) st)

/-- The invariants of the accumulation state: file entries carry a base name
that passed the filter; directory entries have pairwise-distinct names, each
recorded in the seen-prefix set. -/
def EntriesInv (f : Fs) (st : List Str × List DirEntry) : Prop :=
  (∀ e ∈ st.2, e.isFileEntry = true →
    e.name ≠ f.directoryFile ∧ e.name ≠ [] ∧ e.name ≠ pathSeparator) ∧
  ((st.2.filter (fun e => !e.isFileEntry)).map DirEntry.name).Nodup ∧
  (∀ e ∈ st.2, e.isFileEntry = false → e.name ∈ st.1)

/-- The paginator loop of `Fs.ReadDirWithContext`: pages are consumed in
order; the first failing page fetch aborts the loop with its error. -/
def readDirLoop (f : Fs) (now : Time) :
    List (Except Transport ListResult) → List Str × List DirEntry →
    Except Transport (List Str × List DirEntry)
  | [], st => .ok st
  | .error e :: _, _ => .error e
  | .ok page :: rest, st => readDirLoop f now rest (processPage f now st page)

/-- The number of page fetches the paginator loop performs (the failing fetch
included). -/
def consumedCount : List (Except Transport ListResult) → Nat
  | [] => 0
  | .error _ :: _ => 1
  | .ok _ :: rest => 1 + consumedCount rest

/-- The comparator of the `sort.Slice` call in `Fs.ReadDirWithContext`, as a
non-strict order: `a` may precede `b` iff `b.Name() < a.Name()` fails. -/
def entryRel (a b : DirEntry) : Prop := strLt b.name a.name = false

instance : DecidableRel entryRel := fun a b => Bool.decEq (strLt b.name a.name) false

/-- The sort of the accumulated entries by name (`sort.Slice` with the
comparator `result[i].Name() < result[j].Name()`; any by-name sort realizes
its postcondition). -/
def sortEntries (l : List DirEntry) : List DirEntry := List.insertionSort entryRel l

/-- `Fs.ReadDirWithContext` from fs.go: stat the (cleaned) path — NotFound
yields an empty listing, a file is an error; otherwise accumulate entries over
all pages, starting from the synthetic `"."` entry with `"."` and `"/"`
pre-seen, and sort the result by name. -/
def Fs.readDirWithContext (f : Fs) (dirName0 : Str) (statResp : Except Transport ListResult)
    (pages : List (Except Transport ListResult)) (now : Time) :
    Except FsErr (List DirEntry) × List Request :=
  let dirName := cleanPath dirName0
  let st := f.statWithContext dirName statResp now
  match st.1 with
  | .error e =>
    if e.is .errNotExist then (.ok [], st.2) else (.error e, st.2)
  | .ok info =>
    if !info.isDir then (.error (.wrapped .cannotListFile .errInvalid), st.2)
    else
      let optsPfx : Option Str :=
        if dirName = [] then none else some (f.withPrefix [dirName] ++ pathSeparator)
      let pageReq : Request := .listReq f.bucket optsPfx (some pathSeparator) none
      let seed : List Str × List DirEntry :=
        ([currentDirName, pathSeparator], [DirEntry.dirE (directoryFileInfo currentDirName now)])
      let trace := st.2 ++ List.replicate (consumedCount pages) pageReq
      match readDirLoop f now pages seed with
      | .error e => (.error (.transport e), trace)
      | .ok res => (.ok (sortEntries res.2), trace)

/-- `Fs.RemoveWithContext` from fs.go: NotFound from stat is success without a
delete; a directory is an error; otherwise the single derived key is
deleted. -/
def Fs.removeWithContext (f : Fs) (fileName : Str) (statResp : Except Transport ListResult)
    (deleteResp : Except Transport Unit) (now : Time) : Except FsErr Unit × List Request :=
  let st := f.statWithContext fileName statResp now
  match st.1 with
  | .error e =>
    if e.is .errNotExist then (.ok (), st.2) else (.error e, st.2)
  | .ok info =>
    if info.isDir then (.error (.wrapped .namedFileIsDirectory .errInvalid), st.2)
    else
      let req : Request := .deleteReq f.bucket (f.withPrefix [fileName])
      match deleteResp with
      | .error e => (.error (.transport e), st.2 ++ [req])
      | .ok _ => (.ok (), st.2 ++ [req])

/-- `Fs.RenameWithContext` from fs.go: both endpoints are stat'ed (a directory
endpoint is an error); then the object is copied to the new key and the old
path removed via `Fs.RemoveWithContext` (which stats again before
deleting). -/
def Fs.renameWithContext (f : Fs) (oldpath newpath : Str)
    (statOldResp statNewResp : Except Transport ListResult)
    (copyResp : Except Transport Unit) (removeStatResp : Except Transport ListResult)
    (deleteResp : Except Transport Unit) (now : Time) : Except FsErr Unit × List Request :=
  let stOld := f.statWithContext oldpath statOldResp now
  match stOld.1 with
  | .error e => (.error e, stOld.2)
  | .ok oldInfo =>
    if oldInfo.isDir then (.error (.wrapped .oldpathIsDirectory .errInvalid), stOld.2)
    else
      let stNew := f.statWithContext newpath statNewResp now
      let copyAndRemove : Except FsErr Unit × List Request :=
        let copyReq : Request := .copyReq f.bucket (f.withPrefix [newpath])
          (pathJoin [f.bucket, f.withPrefix [oldpath]])
        match copyResp with
        | .error e => (.error (.transport e), stOld.2 ++ stNew.2 ++ [copyReq])
        | .ok _ =>
          let rm := f.removeWithContext oldpath removeStatResp deleteResp now
          (rm.1, stOld.2 ++ stNew.2 ++ [copyReq] ++ rm.2)
      match stNew.1 with
      | .error e =>
        if e.is .errNotExist then copyAndRemove else (.error e, stOld.2 ++ stNew.2)
      | .ok newInfo =>
        if newInfo.isDir then
          (.error (.wrapped .newpathIsDirectory .errInvalid), stOld.2 ++ stNew.2)
        else copyAndRemove

/-- `Fs.RemoveDirWithContext` from fs.go: list the directory; only a listing
whose sole entry is the synthetic `"."` leads to removing the sentinel marker
(via `Fs.Remove` on `path.Join(name, marker)`); anything else is a
"directory not empty" error. -/
def Fs.removeDirWithContext (f : Fs) (name : Str) (statResp : Except Transport ListResult)
    (pages : List (Except Transport ListResult)) (removeStatResp : Except Transport ListResult)
    (deleteResp : Except Transport Unit) (now : Time) : Except FsErr Unit × List Request :=
  let rd := f.readDirWithContext name statResp pages now
  match rd.1 with
  | .error e => (.error e, rd.2)
  | .ok entries =>
    if entries.length = 1 ∧ (entries.head?.map DirEntry.name) = some currentDirName then
      let rm := f.removeWithContext (pathJoin [name, f.directoryFile]) removeStatResp
        deleteResp now
      (rm.1, rd.2 ++ rm.2)
    else (.error (.wrapped .directoryNotEmpty .errInvalid), rd.2)

/-- The read-relevant state of an open `File` handle (file.go): its
`FileInfo`, current offset, and whether a read bridge is attached. -/
structure File where
  info : FileInfo
  offset : Int
  readerOpen : Bool
deriving DecidableEq, Repr

/-- The `io.SeekStart` whence value. -/
def seekStart : Nat := 0

/-- The `io.SeekCurrent` whence value. -/
def seekCurrent : Nat := 1

/-- The `io.SeekEnd` whence value. -/
def seekEnd : Nat := 2

/-- The `Op` string of the `fs.PathError` built by `File.Seek`. -/
def seekOp : Str := ['s', 'e', 'e', 'k']

/-- `File.Seek` from file.go, together with `File.openReaderAt` for the
in-range case: the target is computed from the whence value (`size - offset`
for `SeekEnd`); a target outside `[0, size]` is an immediate
`fs.ErrInvalid` path error with no request issued; otherwise a ranged
`GetObject` fetch is opened at the target and the offset set to it. -/
def File.seek (fl : File) (fsys : Fs) (offset : Int) (whence : Nat) :
    Except FsErr Int × File × List Request :=
  if !fl.readerOpen then
    (.error (.wrapped .seekOnlyForReading .errClosed), fl, [])
  else
    let start : Int :=
      if whence = seekStart then offset
      else if whence = seekCurrent then fl.offset + offset
      else if whence = seekEnd then fl.info.size - offset
      else 0
    if start < 0 ∨ start > fl.info.size then
      (.error (.pathError seekOp fl.info.name .errInvalid), fl, [])
    else
      let req : Request := .getReq fsys.bucket (fsys.withPrefix [fl.info.name])
        (if start > 0 then some start else none)
      (.ok start, { fl with offset := start, readerOpen := true }, [req])

/-- Requests that are object deletions. -/
def Request.isDeleteReq : Request → Bool
  | .deleteReq _ _ => true
  | _ => false

/-- A concrete open read handle used by the seek witness. -/
def sampleFile : File :=
  { info := regularFileInfo ['f'] 10 0, offset := 4, readerOpen := true }

/-- A stat response under which the path `"d"` resolves to a directory: the
listing reports the common prefix `"d/"`. -/
def dirStatResp : Except Transport ListResult :=
  .ok { commonPrefixes := [['d', '/']], contents := [] }

/-- A listing page (also usable as a stat response) whose only content is the
sentinel marker object `"d/.keep"`. -/
def markerPage : Except Transport ListResult :=
  .ok { commonPrefixes := [], contents := [⟨['d', '/', '.', 'k', 'e', 'e', 'p'], 0, none⟩] }

/-- A listing page of directory `"d"` holding both the object `"d/!"` and the
common prefixes `"d/!/"` and `"d/.keep/"`. -/
def c2Page : Except Transport ListResult :=
  .ok { commonPrefixes := [['d', '/', '!', '/'], ['d', '/', '.', 'k', 'e', 'e', 'p', '/']],
        contents := [⟨['d', '/', '!'], 3, some 5⟩] }

/-- A listing page of directory `"d"` with subdirectories `a/`, `b/` and the
object `"d/c"`. -/
def c2GoodPage : Except Transport ListResult :=
  .ok { commonPrefixes := [['d', '/', 'a', '/'], ['d', '/', 'b', '/']],
        contents := [⟨['d', '/', 'c'], 1, some 2⟩] }

/-- The entries `ReadDir` produces for `c2GoodPage`. -/
def c2Entries : List DirEntry :=
  [DirEntry.dirE (directoryFileInfo ['.'] 0), DirEntry.dirE (directoryFileInfo ['a'] 0),
   DirEntry.dirE (directoryFileInfo ['b'] 0), DirEntry.fileE (regularFileInfo ['c'] 1 2)]

/-! ## Helper lemmas -/

/-- A stat trace never contains a mutating request. -/
theorem statTrace_no_mutation (f : Fs) (name : Str) (resp : Except Transport ListResult)
    (now : Time) : ∀ r ∈ (f.statWithContext name resp now).2, r.isMutation = false := by
  unfold Fs.statWithContext
  split
  · simp
  · split
    · simp [Request.isMutation]
    · dsimp only
      split
      · simp [Request.isMutation]
      · split <;> simp [Request.isMutation]

/-- A directory `FileInfo` always has the directory mode bit. -/
theorem directoryFileInfo_isDir (name : Str) (now : Time) :
    (directoryFileInfo name now).isDir = true := by
  simp only [directoryFileInfo, FileInfo.isDir]
  decide

/-- A regular-file `FileInfo` never has the directory mode bit. -/
theorem regularFileInfo_isDir (name : Str) (size : Int) (t : Time) :
    (regularFileInfo name size t).isDir = false := by
  simp only [regularFileInfo, FileInfo.isDir]
  decide

/-! ## C9 -/

/-- C9: stat of `""`, `"."` and `"/"` returns, for every filesystem instance,
a synthetic directory `FileInfo` of size 0 with the directory mode bit, and
issues no request to the store. -/
theorem stat_root_synthetic (f : Fs) (resp : Except Transport ListResult) (now : Time) :
    f.statWithContext [] resp now = (.ok (directoryFileInfo currentDirName now), []) ∧
    f.statWithContext ['.'] resp now = (.ok (directoryFileInfo currentDirName now), []) ∧
    f.statWithContext ['/'] resp now = (.ok (directoryFileInfo currentDirName now), []) ∧
    (directoryFileInfo currentDirName now).isDir = true ∧
    (directoryFileInfo currentDirName now).size = 0 :=
  ⟨rfl, rfl, rfl, directoryFileInfo_isDir _ _, rfl⟩

/-! ## C1 -/

/-- C1: for a path whose normalized form is non-empty, stat issues exactly one
listing request — scoped to the derived key, with the path separator as
delimiter and `MaxKeys = 1` — and resolves its response as: a directory
`FileInfo` when `key + "/"` is among the common prefixes; else a file
`FileInfo` built from the first listed entry whose key equals the key exactly;
else the `fs.ErrNotExist` outcome, which is distinct from every transport
error. -/
theorem stat_singleListing_resolution (f : Fs) (name : Str)
    (resp : Except Transport ListResult) (now : Time)
    (h : cleanPath name ≠ []) :
    (f.statWithContext name resp now).2 =
      [.listReq f.bucket (some (f.withPrefix [name])) (some pathSeparator) (some 1)] ∧
    (∀ e, resp = .error e →
      (f.statWithContext name resp now).1 = .error (.transport e)) ∧
    (∀ res, resp = .ok res →
      ((f.withPrefix [name] ++ pathSeparator) ∈ res.commonPrefixes →
        (f.statWithContext name resp now).1 = .ok (directoryFileInfo (cleanPath name) now)) ∧
      ((f.withPrefix [name] ++ pathSeparator) ∉ res.commonPrefixes →
        (∀ el, res.contents.find? (fun el => el.key = f.withPrefix [name]) = some el →
          (f.statWithContext name resp now).1 =
            .ok (regularFileInfo (cleanPath name) el.size (el.lastModified.getD now))) ∧
        ((∀ el ∈ res.contents, el.key ≠ f.withPrefix [name]) →
          (f.statWithContext name resp now).1 = .error (.sentinel .errNotExist)))) ∧
    ((FsErr.sentinel .errNotExist).is .errNotExist = true ∧
      ∀ e, (FsErr.transport e).is .errNotExist = false ∧
        FsErr.sentinel .errNotExist ≠ FsErr.transport e) := by
  refine ⟨?_, ?_, ?_, rfl, fun e => ⟨rfl, by simp⟩⟩
  · unfold Fs.statWithContext
    rw [if_neg h]
    rcases resp with e | res
    · rfl
    · simp only
      split
      · rfl
      · split <;> rfl
  · rintro e rfl
    unfold Fs.statWithContext
    rw [if_neg h]
  · rintro res rfl
    constructor
    · intro hmem
      unfold Fs.statWithContext
      rw [if_neg h]
      simp only [hmem, if_pos]
    · intro hmem
      constructor
      · intro el hel
        unfold Fs.statWithContext
        rw [if_neg h]
        simp [hmem, hel]
      · intro hnone
        unfold Fs.statWithContext
        rw [if_neg h]
        have hfind : res.contents.find? (fun el => el.key = f.withPrefix [name]) = none := by
          rw [List.find?_eq_none]
          intro el hmem2
          simp [hnone el hmem2]
        simp [hmem, hfind]

/-- Witness for C1: a concrete non-root path, with the three resolutions
exercised on a response containing the exact key. -/
theorem stat_singleListing_resolution_witness :
    cleanPath ['a'] ≠ [] ∧
    ((Fs.new ['b']).statWithContext ['a']
      (.ok { commonPrefixes := [], contents := [⟨['a'], 7, some 3⟩] }) 0).1 =
      .ok (regularFileInfo ['a'] 7 3) := by
  have h := stat_singleListing_resolution (Fs.new ['b']) ['a']
    (.ok { commonPrefixes := [], contents := [⟨['a'], 7, some 3⟩] }) 0 (by decide)
  refine ⟨by decide, ?_⟩
  have h2 := (((h.2.2.1 _ rfl).2 (by decide)).1 ⟨['a'], 7, some 3⟩ (by decide))
  simpa using h2

/-! ## C6 -/

/-- C6: Remove treats NotFound as success and issues no delete; a directory
is an `fs.ErrInvalid` error with no delete; otherwise exactly the single
derived key is deleted. -/
theorem remove_idempotent_spec (f : Fs) (fileName : Str)
    (statResp : Except Transport ListResult) (deleteResp : Except Transport Unit)
    (now : Time) :
    (∀ e, (f.statWithContext fileName statResp now).1 = .error e → e.is .errNotExist = true →
      f.removeWithContext fileName statResp deleteResp now =
        (.ok (), (f.statWithContext fileName statResp now).2) ∧
      ∀ r ∈ (f.removeWithContext fileName statResp deleteResp now).2, r.isMutation = false) ∧
    (∀ info, (f.statWithContext fileName statResp now).1 = .ok info → info.isDir = true →
      f.removeWithContext fileName statResp deleteResp now =
        (.error (.wrapped .namedFileIsDirectory .errInvalid),
          (f.statWithContext fileName statResp now).2) ∧
      ∀ r ∈ (f.removeWithContext fileName statResp deleteResp now).2, r.isMutation = false) ∧
    (∀ info, (f.statWithContext fileName statResp now).1 = .ok info → info.isDir = false →
      (f.removeWithContext fileName statResp deleteResp now).2 =
        (f.statWithContext fileName statResp now).2 ++
          [.deleteReq f.bucket (f.withPrefix [fileName])] ∧
      (deleteResp = .ok () →
        (f.removeWithContext fileName statResp deleteResp now).1 = .ok ())) := by
  refine ⟨?_, ?_, ?_⟩
  · intro e he hnot
    have hres : f.removeWithContext fileName statResp deleteResp now =
        (.ok (), (f.statWithContext fileName statResp now).2) := by
      unfold Fs.removeWithContext
      dsimp only
      rw [he]
      simp [hnot]
    refine ⟨hres, ?_⟩
    rw [hres]
    exact statTrace_no_mutation f fileName statResp now
  · intro info hinfo hdir
    have hres : f.removeWithContext fileName statResp deleteResp now =
        (.error (.wrapped .namedFileIsDirectory .errInvalid),
          (f.statWithContext fileName statResp now).2) := by
      unfold Fs.removeWithContext
      dsimp only
      rw [hinfo]
      simp [hdir]
    refine ⟨hres, ?_⟩
    rw [hres]
    exact statTrace_no_mutation f fileName statResp now
  · intro info hinfo hdir
    constructor
    · unfold Fs.removeWithContext
      dsimp only
      rw [hinfo]
      rcases deleteResp with e | u <;> simp [hdir]
    · rintro rfl
      unfold Fs.removeWithContext
      dsimp only
      rw [hinfo]
      simp [hdir]

/-- Witness for C6: removing a missing path succeeds without a delete. -/
theorem remove_idempotent_spec_witness :
    ((Fs.new ['b']).statWithContext ['a'] (.ok ⟨[], []⟩) 0).1 =
      .error (.sentinel .errNotExist) ∧
    (Fs.new ['b']).removeWithContext ['a'] (.ok ⟨[], []⟩) (.ok ()) 0 =
      (.ok (), ((Fs.new ['b']).statWithContext ['a'] (.ok ⟨[], []⟩) 0).2) := by
  have h := (remove_idempotent_spec (Fs.new ['b']) ['a'] (.ok ⟨[], []⟩) (.ok ()) 0).1
    (.sentinel .errNotExist) (by rfl) (by decide)
  exact ⟨by rfl, h.1⟩

/-! ## C10 -/

/-- C10: on a handle open for reading, a seek whose computed target (offset
for `SeekStart`, current position plus offset for `SeekCurrent`, size minus
offset for `SeekEnd`) lies outside `[0, size]` fails with an `fs.ErrInvalid`
path error and issues no store request, leaving the handle unchanged; an
in-range target returns the target, repositions the handle's offset to exactly
it, and opens a ranged fetch there. -/
theorem seek_bounds_spec (fl : File) (fsys : Fs) (off : Int) (whence : Nat) (t : Int)
    (hopen : fl.readerOpen = true)
    (ht : (whence = seekStart ∧ t = off) ∨ (whence = seekCurrent ∧ t = fl.offset + off) ∨
      (whence = seekEnd ∧ t = fl.info.size - off)) :
    ((t < 0 ∨ t > fl.info.size) →
      fl.seek fsys off whence = (.error (.pathError seekOp fl.info.name .errInvalid), fl, [])) ∧
    (0 ≤ t → t ≤ fl.info.size →
      (fl.seek fsys off whence).1 = .ok t ∧
      (fl.seek fsys off whence).2.1.offset = t ∧
      (fl.seek fsys off whence).2.2 =
        [.getReq fsys.bucket (fsys.withPrefix [fl.info.name])
          (if t > 0 then some t else none)]) := by
  have hstart : (if whence = seekStart then off
      else if whence = seekCurrent then fl.offset + off
      else if whence = seekEnd then fl.info.size - off
      else 0) = t := by
    rcases ht with ⟨hw, htv⟩ | ⟨hw, htv⟩ | ⟨hw, htv⟩ <;> subst hw <;> simp [htv, seekStart,
      seekCurrent, seekEnd]
  constructor
  · intro hout
    unfold File.seek
    rw [hopen]
    simp only [Bool.not_true, Bool.false_eq_true, if_false, hstart]
    rw [if_pos hout]
  · intro h0 hsz
    have hin : ¬(t < 0 ∨ t > fl.info.size) := by omega
    unfold File.seek
    rw [hopen]
    simp only [Bool.not_true, Bool.false_eq_true, if_false, hstart]
    rw [if_neg hin]
    exact ⟨rfl, rfl, rfl⟩

/-- Witness for C10: a concrete open handle of size 10; seeking to 20 from the
start fails without a request, seeking to 3 from the end succeeds at 7. -/
theorem seek_bounds_spec_witness :
    sampleFile.seek (Fs.new ['b']) 20 0 =
      (.error (.pathError seekOp ['f'] .errInvalid), sampleFile, []) ∧
    (sampleFile.seek (Fs.new ['b']) 3 2).1 = .ok 7 := by
  constructor
  · exact (seek_bounds_spec sampleFile (Fs.new ['b']) 20 0 20 rfl (Or.inl ⟨rfl, rfl⟩)).1
      (by right; decide)
  · exact ((seek_bounds_spec sampleFile (Fs.new ['b']) 3 2 7 rfl
      (Or.inr (Or.inr ⟨rfl, by decide⟩))).2 (by decide) (by decide)).1

/-! ## C3 -/

/-- Counterexample to C3: the path `"d"` resolves to a directory, yet
CreateDir returns an `fs.ErrExist` error ("a directory with the same name
already exists") instead of succeeding as an idempotent no-op. -/
theorem createDir_existing_dir_errors :
    ((Fs.new ['b']).statWithContext ['d'] dirStatResp 0).1 =
      .ok (directoryFileInfo ['d'] 0) ∧
    (directoryFileInfo ['d'] 0).isDir = true ∧
    ((Fs.new ['b']).createDirWithContext ['d'] dirStatResp (.ok ()) 0).1 =
      .error (.wrapped .dirAlreadyExists .errExist) ∧
    (FsErr.wrapped .dirAlreadyExists .errExist).is .errExist = true := by
  refine ⟨by rfl, directoryFileInfo_isDir _ _, by rfl, by decide⟩

/-- C3 as amended: CreateDir fails with an `fs.ErrExist` error both when the
path resolves to an existing regular file and when it resolves to an existing
directory (no marker is uploaded in either case); it uploads the sentinel
marker and succeeds exactly when stat reports NotFound. -/
theorem createDir_conflict_spec (f : Fs) (name : Str)
    (statResp : Except Transport ListResult) (putResp : Except Transport Unit)
    (now : Time) :
    (∀ info, (f.statWithContext name statResp now).1 = .ok info → info.isDir = true →
      f.createDirWithContext name statResp putResp now =
        (.error (.wrapped .dirAlreadyExists .errExist),
          (f.statWithContext name statResp now).2) ∧
      ∀ r ∈ (f.createDirWithContext name statResp putResp now).2, r.isMutation = false) ∧
    (∀ info, (f.statWithContext name statResp now).1 = .ok info → info.isDir = false →
      f.createDirWithContext name statResp putResp now =
        (.error (.wrapped .fileAlreadyExists .errExist),
          (f.statWithContext name statResp now).2) ∧
      ∀ r ∈ (f.createDirWithContext name statResp putResp now).2, r.isMutation = false) ∧
    (∀ e, (f.statWithContext name statResp now).1 = .error e → e.is .errNotExist = true →
      (f.createDirWithContext name statResp putResp now).2 =
        (f.statWithContext name statResp now).2 ++
          [.putReq f.bucket (f.withPrefix [name, f.directoryFile])] ∧
      (putResp = .ok () →
        (f.createDirWithContext name statResp putResp now).1 =
          .ok (.dirE (directoryFileInfo (cleanPath name) now)))) := by
  refine ⟨?_, ?_, ?_⟩
  · intro info hinfo hdir
    have hres : f.createDirWithContext name statResp putResp now =
        (.error (.wrapped .dirAlreadyExists .errExist),
          (f.statWithContext name statResp now).2) := by
      unfold Fs.createDirWithContext
      dsimp only
      rw [hinfo]
      simp [hdir]
    refine ⟨hres, ?_⟩
    rw [hres]
    exact statTrace_no_mutation f name statResp now
  · intro info hinfo hdir
    have hres : f.createDirWithContext name statResp putResp now =
        (.error (.wrapped .fileAlreadyExists .errExist),
          (f.statWithContext name statResp now).2) := by
      unfold Fs.createDirWithContext
      dsimp only
      rw [hinfo]
      simp [hdir]
    refine ⟨hres, ?_⟩
    rw [hres]
    exact statTrace_no_mutation f name statResp now
  · intro e he hnot
    constructor
    · unfold Fs.createDirWithContext
      dsimp only
      rw [he]
      rcases putResp with e2 | u <;> simp [hnot]
    · rintro rfl
      unfold Fs.createDirWithContext
      dsimp only
      rw [he]
      simp [hnot]

/-- Witness for C3's amended statement: creating a missing directory uploads
the marker and succeeds. -/
theorem createDir_conflict_spec_witness :
    ((Fs.new ['b']).statWithContext ['d'] (.ok ⟨[], []⟩) 0).1 =
      .error (.sentinel .errNotExist) ∧
    ((Fs.new ['b']).createDirWithContext ['d'] (.ok ⟨[], []⟩) (.ok ()) 0).1 =
      .ok (.dirE (directoryFileInfo ['d'] 0)) := by
  have h := (createDir_conflict_spec (Fs.new ['b']) ['d'] (.ok ⟨[], []⟩) (.ok ()) 0).2.2
    (.sentinel .errNotExist) (by rfl) (by decide)
  exact ⟨by rfl, h.2 rfl⟩

/-! ## C4 -/

/-- C4: a directory at either endpoint makes Rename fail with the
`fs.ErrInvalid` ("is a directory") error while issuing no mutating request at
all, so the store — in particular the object at the old path — is unchanged;
when both endpoints resolve consistently to non-directories, the trace is
exactly: stat old, stat new, copy old-key to new-key, stat old again, delete
old-key — the copy strictly preceding the delete. -/
theorem rename_directory_guard_order (f : Fs) (oldpath newpath : Str)
    (statOldResp statNewResp : Except Transport ListResult)
    (copyResp : Except Transport Unit) (removeStatResp : Except Transport ListResult)
    (deleteResp : Except Transport Unit) (now : Time) :
    (∀ info, (f.statWithContext oldpath statOldResp now).1 = .ok info → info.isDir = true →
      (f.renameWithContext oldpath newpath statOldResp statNewResp copyResp
          removeStatResp deleteResp now).1 =
        .error (.wrapped .oldpathIsDirectory .errInvalid) ∧
      ∀ r ∈ (f.renameWithContext oldpath newpath statOldResp statNewResp copyResp
          removeStatResp deleteResp now).2, r.isMutation = false) ∧
    (∀ infoOld infoNew, (f.statWithContext oldpath statOldResp now).1 = .ok infoOld →
      infoOld.isDir = false →
      (f.statWithContext newpath statNewResp now).1 = .ok infoNew → infoNew.isDir = true →
      (f.renameWithContext oldpath newpath statOldResp statNewResp copyResp
          removeStatResp deleteResp now).1 =
        .error (.wrapped .newpathIsDirectory .errInvalid) ∧
      ∀ r ∈ (f.renameWithContext oldpath newpath statOldResp statNewResp copyResp
          removeStatResp deleteResp now).2, r.isMutation = false) ∧
    (∀ infoOld infoRm, (f.statWithContext oldpath statOldResp now).1 = .ok infoOld →
      infoOld.isDir = false →
      ((f.statWithContext newpath statNewResp now).1 = .error (.sentinel .errNotExist) ∨
        ∃ infoNew, (f.statWithContext newpath statNewResp now).1 = .ok infoNew ∧
          infoNew.isDir = false) →
      copyResp = .ok () →
      (f.statWithContext oldpath removeStatResp now).1 = .ok infoRm → infoRm.isDir = false →
      (f.renameWithContext oldpath newpath statOldResp statNewResp copyResp
          removeStatResp deleteResp now).2 =
        (f.statWithContext oldpath statOldResp now).2 ++
        (f.statWithContext newpath statNewResp now).2 ++
        [.copyReq f.bucket (f.withPrefix [newpath])
          (pathJoin [f.bucket, f.withPrefix [oldpath]])] ++
        (f.statWithContext oldpath removeStatResp now).2 ++
        [.deleteReq f.bucket (f.withPrefix [oldpath])] ∧
      (deleteResp = .ok () →
        (f.renameWithContext oldpath newpath statOldResp statNewResp copyResp
            removeStatResp deleteResp now).1 = .ok ())) := by
  refine ⟨?_, ?_, ?_⟩
  · intro info hinfo hdir
    have hres : (f.renameWithContext oldpath newpath statOldResp statNewResp copyResp
        removeStatResp deleteResp now) =
        (.error (.wrapped .oldpathIsDirectory .errInvalid),
          (f.statWithContext oldpath statOldResp now).2) := by
      unfold Fs.renameWithContext
      dsimp only
      rw [hinfo]
      simp [hdir]
    refine ⟨by rw [hres], ?_⟩
    rw [hres]
    exact statTrace_no_mutation f oldpath statOldResp now
  · intro infoOld infoNew hold holdDir hnew hnewDir
    have hres : (f.renameWithContext oldpath newpath statOldResp statNewResp copyResp
        removeStatResp deleteResp now) =
        (.error (.wrapped .newpathIsDirectory .errInvalid),
          (f.statWithContext oldpath statOldResp now).2 ++
          (f.statWithContext newpath statNewResp now).2) := by
      unfold Fs.renameWithContext
      dsimp only
      rw [hold]
      simp only [holdDir, Bool.false_eq_true, if_false]
      rw [hnew]
      simp [hnewDir]
    refine ⟨by rw [hres], ?_⟩
    rw [hres]
    intro r hr
    rcases List.mem_append.mp hr with h1 | h2
    · exact statTrace_no_mutation f oldpath statOldResp now r h1
    · exact statTrace_no_mutation f newpath statNewResp now r h2
  · intro infoOld infoRm hold holdDir hnew hcopy hrm hrmDir
    subst hcopy
    have hrmEq : f.removeWithContext oldpath removeStatResp deleteResp now =
        ((f.removeWithContext oldpath removeStatResp deleteResp now).1,
          (f.statWithContext oldpath removeStatResp now).2 ++
          [.deleteReq f.bucket (f.withPrefix [oldpath])]) := by
      unfold Fs.removeWithContext
      dsimp only
      rw [hrm]
      rcases deleteResp with e | u <;> simp [hrmDir]
    have hres : (f.renameWithContext oldpath newpath statOldResp statNewResp (.ok ())
          removeStatResp deleteResp now) =
        ((f.removeWithContext oldpath removeStatResp deleteResp now).1,
          (f.statWithContext oldpath statOldResp now).2 ++
          (f.statWithContext newpath statNewResp now).2 ++
          [.copyReq f.bucket (f.withPrefix [newpath])
            (pathJoin [f.bucket, f.withPrefix [oldpath]])] ++
          (f.removeWithContext oldpath removeStatResp deleteResp now).2) := by
      unfold Fs.renameWithContext
      dsimp only
      rw [hold]
      simp only [holdDir, Bool.false_eq_true, if_false]
      rcases hnew with hne | ⟨infoNew, hne, hnd⟩
      · rw [hne]
        simp [FsErr.is]
      · rw [hne]
        simp [hnd]
    constructor
    · rw [hres]
      conv_lhs => rw [hrmEq]
      simp [List.append_assoc]
    · rintro rfl
      rw [hres]
      unfold Fs.removeWithContext
      dsimp only
      rw [hrm]
      simp [hrmDir]

/-- Witness for C4: renaming a file onto an existing directory fails with the
"newpath is a directory" error and issues no mutating request. -/
theorem rename_directory_guard_order_witness :
    ((Fs.new ['b']).statWithContext ['a'] (.ok ⟨[], [⟨['a'], 1, none⟩]⟩) 0).1 =
      .ok (regularFileInfo ['a'] 1 0) ∧
    ((Fs.new ['b']).statWithContext ['d'] dirStatResp 0).1 =
      .ok (directoryFileInfo ['d'] 0) ∧
    ((Fs.new ['b']).renameWithContext ['a'] ['d'] (.ok ⟨[], [⟨['a'], 1, none⟩]⟩)
        dirStatResp (.ok ()) (.ok ⟨[], []⟩) (.ok ()) 0).1 =
      .error (.wrapped .newpathIsDirectory .errInvalid) := by
  have h := (rename_directory_guard_order (Fs.new ['b']) ['a'] ['d']
    (.ok ⟨[], [⟨['a'], 1, none⟩]⟩) dirStatResp (.ok ()) (.ok ⟨[], []⟩) (.ok ()) 0).2.1
    (regularFileInfo ['a'] 1 0) (directoryFileInfo ['d'] 0) (by rfl)
    (regularFileInfo_isDir _ _ _) (by rfl) (directoryFileInfo_isDir _ _)
  exact ⟨by rfl, by rfl, h.1⟩

/-! ## C7 -/

/-- The paginator loop surfaces the first failing page fetch as its result. -/
theorem readDirLoop_error (f : Fs) (now : Time) :
    ∀ (good : List (Except Transport ListResult)), (∀ p ∈ good, ∃ pg, p = .ok pg) →
    ∀ (e : Transport) (rest : List (Except Transport ListResult))
      (st : List Str × List DirEntry),
      readDirLoop f now (good ++ .error e :: rest) st = .error e := by
  intro good
  induction good with
  | nil => intro _ e rest st; rfl
  | cons p ps ih =>
    intro hgood e rest st
    obtain ⟨pg, rfl⟩ := hgood p (List.mem_cons_self p ps)
    show readDirLoop f now (ps ++ .error e :: rest) (processPage f now st pg) = .error e
    exact ih (fun q hq => hgood q (List.mem_cons_of_mem _ hq)) e rest _

/-- C7: ReadDir returns an empty sequence without error when stat reports
NotFound; fails with the "cannot list a file" `fs.ErrInvalid` error when stat
resolves a regular file; and surfaces the first failing page fetch as its
error, returning no entries at all. -/
theorem readDir_preconditions_abort (f : Fs) (dirName : Str)
    (statResp : Except Transport ListResult)
    (pages : List (Except Transport ListResult)) (now : Time) :
    (∀ e, (f.statWithContext (cleanPath dirName) statResp now).1 = .error e →
      e.is .errNotExist = true →
      (f.readDirWithContext dirName statResp pages now).1 = .ok []) ∧
    (∀ info, (f.statWithContext (cleanPath dirName) statResp now).1 = .ok info →
      info.isDir = false →
      (f.readDirWithContext dirName statResp pages now).1 =
        .error (.wrapped .cannotListFile .errInvalid)) ∧
    (∀ info, (f.statWithContext (cleanPath dirName) statResp now).1 = .ok info →
      info.isDir = true →
      ∀ good e rest, pages = good ++ .error e :: rest → (∀ p ∈ good, ∃ pg, p = .ok pg) →
      (f.readDirWithContext dirName statResp pages now).1 = .error (.transport e)) := by
  refine ⟨?_, ?_, ?_⟩
  · intro e hstat hnot
    unfold Fs.readDirWithContext
    dsimp only
    rw [hstat]
    simp [hnot]
  · intro info hstat hdir
    unfold Fs.readDirWithContext
    dsimp only
    rw [hstat]
    simp [hdir]
  · intro info hstat hdir good e rest hpages hgood
    unfold Fs.readDirWithContext
    dsimp only
    rw [hstat]
    simp only [hdir, Bool.not_true, Bool.false_eq_true, if_false]
    rw [hpages, readDirLoop_error f now good hgood e rest _]

/-- Witness for C7: listing a missing directory, and a transport error on the
first (and only) page of an existing directory's listing. -/
theorem readDir_preconditions_abort_witness :
    ((Fs.new ['b']).readDirWithContext ['x'] (.ok ⟨[], []⟩) [] 0).1 = .ok [] ∧
    ((Fs.new ['b']).readDirWithContext ['d'] dirStatResp [.error ⟨9⟩] 0).1 =
      .error (.transport ⟨9⟩) := by
  constructor
  · exact (readDir_preconditions_abort (Fs.new ['b']) ['x'] (.ok ⟨[], []⟩) [] 0).1
      (.sentinel .errNotExist) (by rfl) (by decide)
  · exact (readDir_preconditions_abort (Fs.new ['b']) ['d'] dirStatResp [.error ⟨9⟩] 0).2.2
      (directoryFileInfo ['d'] 0) (by rfl) (directoryFileInfo_isDir _ _)
      [] ⟨9⟩ [] rfl (by intro p hp; cases hp)

/-! ## C5 -/

/-- Non-mutating requests are in particular not deletions. -/
theorem isDeleteReq_of_not_mutation (r : Request) (h : r.isMutation = false) :
    r.isDeleteReq = false := by
  cases r <;> simp_all [Request.isMutation, Request.isDeleteReq]

/-- A ReadDir trace never contains a mutating request: it is the stat trace
followed by listing-page fetches. -/
theorem readDirTrace_no_mutation (f : Fs) (dirName : Str)
    (statResp : Except Transport ListResult) (pages : List (Except Transport ListResult))
    (now : Time) :
    ∀ r ∈ (f.readDirWithContext dirName statResp pages now).2, r.isMutation = false := by
  have hstat := statTrace_no_mutation f (cleanPath dirName) statResp now
  unfold Fs.readDirWithContext
  dsimp only
  split
  · split
    · exact hstat
    · exact hstat
  · split
    · exact hstat
    · split <;>
      · intro r hr
        rcases List.mem_append.mp hr with h1 | h2
        · exact hstat r h1
        · rw [List.eq_of_mem_replicate h2]
          rfl

/-- C5: RemoveDirectory fails with the "directory not empty" `fs.ErrInvalid`
error and deletes nothing whenever the listing is anything other than exactly
the synthetic `"."` entry (the empty listing of a missing directory included);
when the listing is exactly `"."`, it deletes exactly the sentinel marker
object under the path and succeeds; and it succeeds only if the listing was
exactly `"."`. -/
theorem removeDir_only_dot_spec (f : Fs) (name : Str)
    (statResp : Except Transport ListResult) (pages : List (Except Transport ListResult))
    (removeStatResp : Except Transport ListResult) (deleteResp : Except Transport Unit)
    (now : Time) :
    (∀ entries, (f.readDirWithContext name statResp pages now).1 = .ok entries →
      ¬(entries.length = 1 ∧ entries.head?.map DirEntry.name = some currentDirName) →
      f.removeDirWithContext name statResp pages removeStatResp deleteResp now =
        (.error (.wrapped .directoryNotEmpty .errInvalid),
          (f.readDirWithContext name statResp pages now).2) ∧
      ∀ r ∈ (f.removeDirWithContext name statResp pages removeStatResp deleteResp now).2,
        r.isDeleteReq = false) ∧
    (∀ entries infoRm, (f.readDirWithContext name statResp pages now).1 = .ok entries →
      entries.length = 1 → entries.head?.map DirEntry.name = some currentDirName →
      (f.statWithContext (pathJoin [name, f.directoryFile]) removeStatResp now).1 =
        .ok infoRm →
      infoRm.isDir = false →
      (deleteResp = .ok () →
        (f.removeDirWithContext name statResp pages removeStatResp deleteResp now).1 =
          .ok ()) ∧
      (f.removeDirWithContext name statResp pages removeStatResp deleteResp now).2.filter
          Request.isDeleteReq =
        [.deleteReq f.bucket (f.withPrefix [pathJoin [name, f.directoryFile]])]) ∧
    ((f.removeDirWithContext name statResp pages removeStatResp deleteResp now).1 =
        .ok () →
      ∃ entries, (f.readDirWithContext name statResp pages now).1 = .ok entries ∧
        entries.length = 1 ∧ entries.head?.map DirEntry.name = some currentDirName) := by
  refine ⟨?_, ?_, ?_⟩
  · intro entries hrd hcond
    have hres : f.removeDirWithContext name statResp pages removeStatResp deleteResp now =
        (.error (.wrapped .directoryNotEmpty .errInvalid),
          (f.readDirWithContext name statResp pages now).2) := by
      unfold Fs.removeDirWithContext
      dsimp only
      rw [hrd]
      dsimp only
      rw [if_neg hcond]
    refine ⟨hres, ?_⟩
    rw [hres]
    intro r hr
    exact isDeleteReq_of_not_mutation r (readDirTrace_no_mutation f name statResp pages now r hr)
  · intro entries infoRm hrd hlen hhead hrm hrmDir
    have hrmSpec := (remove_idempotent_spec f (pathJoin [name, f.directoryFile])
      removeStatResp deleteResp now).2.2 infoRm hrm hrmDir
    have hres : f.removeDirWithContext name statResp pages removeStatResp deleteResp now =
        ((f.removeWithContext (pathJoin [name, f.directoryFile]) removeStatResp
            deleteResp now).1,
          (f.readDirWithContext name statResp pages now).2 ++
          (f.removeWithContext (pathJoin [name, f.directoryFile]) removeStatResp
            deleteResp now).2) := by
      unfold Fs.removeDirWithContext
      dsimp only
      rw [hrd]
      dsimp only
      rw [if_pos ⟨hlen, hhead⟩]
    constructor
    · intro hdel
      rw [hres]
      have := (remove_idempotent_spec f (pathJoin [name, f.directoryFile])
        removeStatResp deleteResp now).2.2 infoRm hrm hrmDir
      exact this.2 hdel
    · rw [hres]
      have hfilterRd :
          ((f.readDirWithContext name statResp pages now).2).filter Request.isDeleteReq
            = [] := by
        rw [List.filter_eq_nil_iff]
        intro r hr
        simp [isDeleteReq_of_not_mutation r
          (readDirTrace_no_mutation f name statResp pages now r hr)]
      have hfilterStat :
          ((f.statWithContext (pathJoin [name, f.directoryFile]) removeStatResp now).2).filter
            Request.isDeleteReq = [] := by
        rw [List.filter_eq_nil_iff]
        intro r hr
        simp [isDeleteReq_of_not_mutation r
          (statTrace_no_mutation f (pathJoin [name, f.directoryFile]) removeStatResp now r hr)]
      rw [List.filter_append, hfilterRd, hrmSpec.1, List.filter_append, hfilterStat]
      rfl
  · intro hok
    rcases hrd : (f.readDirWithContext name statResp pages now).1 with e | entries
    · exfalso
      have hval : (f.removeDirWithContext name statResp pages removeStatResp deleteResp now).1 =
          .error e := by
        unfold Fs.removeDirWithContext
        dsimp only
        rw [hrd]
      rw [hval] at hok
      cases hok
    · by_cases hcond : entries.length = 1 ∧ entries.head?.map DirEntry.name = some currentDirName
      · exact ⟨entries, rfl, hcond⟩
      · exfalso
        have hval : (f.removeDirWithContext name statResp pages removeStatResp
            deleteResp now).1 = .error (.wrapped .directoryNotEmpty .errInvalid) := by
          unfold Fs.removeDirWithContext
          dsimp only
          rw [hrd]
          dsimp only
          rw [if_neg hcond]
        rw [hval] at hok
        cases hok

/-- Witness for C5: a directory holding only the sentinel marker lists as
exactly `"."`; RemoveDirectory succeeds and its only delete is the marker. -/
theorem removeDir_only_dot_spec_witness :
    ((Fs.new ['b']).removeDirWithContext ['d'] dirStatResp [markerPage] markerPage
        (.ok ()) 0).1 = .ok () ∧
    ((Fs.new ['b']).removeDirWithContext ['d'] dirStatResp [markerPage] markerPage
        (.ok ()) 0).2.filter Request.isDeleteReq =
      [.deleteReq ['b'] ['d', '/', '.', 'k', 'e', 'e', 'p']] := by
  have h := (removeDir_only_dot_spec (Fs.new ['b']) ['d'] dirStatResp [markerPage]
    markerPage (.ok ()) 0).2.1 [DirEntry.dirE (directoryFileInfo ['.'] 0)]
    (regularFileInfo ['d', '/', '.', 'k', 'e', 'e', 'p'] 0 0)
    (by rfl) (by rfl) (by rfl) (by rfl) (regularFileInfo_isDir _ _ _)
  exact ⟨h.1 rfl, h.2⟩

/-! ## C8 -/

/-- `splitSep` never returns the empty list. -/
theorem splitSep_ne_nil (sep : Char) (s : Str) : splitSep sep s ≠ [] := by
  cases s with
  | nil => simp [splitSep]
  | cons c cs =>
    simp only [splitSep]
    split
    · simp
    · split <;> simp

/-- Elements produced by `splitSep` never contain the separator. -/
theorem splitSep_not_mem (sep : Char) (s : Str) : ∀ seg ∈ splitSep sep s, sep ∉ seg := by
  induction s with
  | nil =>
    intro seg hseg
    simp only [splitSep, List.mem_singleton] at hseg
    simp [hseg]
  | cons c cs ih =>
    intro seg hseg
    simp only [splitSep] at hseg
    cases hsp : splitSep sep cs with
    | nil => exact absurd hsp (splitSep_ne_nil sep cs)
    | cons hd tl =>
      rw [hsp] at hseg
      dsimp only at hseg
      by_cases hc : c = sep
      · rw [if_pos hc] at hseg
        rcases List.mem_cons.mp hseg with h1 | h2
        · simp [h1]
        · exact ih seg (hsp ▸ h2)
      · rw [if_neg hc] at hseg
        rcases List.mem_cons.mp hseg with h1 | h2
        · subst h1
          intro hmem
          rcases List.mem_cons.mp hmem with h3 | h4
          · exact hc h3.symm
          · exact ih hd (hsp ▸ List.mem_cons_self hd tl) h4
        · exact ih seg (hsp ▸ List.mem_cons_of_mem hd h2)

/-- Splitting a separator-free string yields that string as single segment. -/
theorem splitSep_of_not_mem (sep : Char) (x : Str) (hx : sep ∉ x) :
    splitSep sep x = [x] := by
  induction x with
  | nil => rfl
  | cons c cs ih =>
    have hc : ¬c = sep := fun h => hx (h ▸ List.mem_cons_self c cs)
    have hcs : sep ∉ cs := fun h => hx (List.mem_cons_of_mem c h)
    simp only [splitSep, ih hcs]
    rw [if_neg hc]

/-- Splitting past the first separator. -/
theorem splitSep_append (sep : Char) (x t : Str) (hx : sep ∉ x) :
    splitSep sep (x ++ sep :: t) = x :: splitSep sep t := by
  induction x with
  | nil =>
    simp only [List.nil_append, splitSep]
    cases hsp : splitSep sep t with
    | nil => exact absurd hsp (splitSep_ne_nil sep t)
    | cons hd tl => simp
  | cons c cs ih =>
    have hc : ¬c = sep := fun h => hx (h ▸ List.mem_cons_self c cs)
    have hcs : sep ∉ cs := fun h => hx (List.mem_cons_of_mem c h)
    simp only [List.cons_append, splitSep, List.append_eq]
    rw [ih hcs]
    dsimp only
    rw [if_neg hc]

/-- Round trip: splitting a separator-joined list of separator-free
segments recovers the list. -/
theorem splitSep_joinSep (sep : Char) :
    ∀ (l : List Str), l ≠ [] → (∀ seg ∈ l, sep ∉ seg) →
      splitSep sep (joinSep sep l) = l := by
  intro l
  induction l with
  | nil => intro h; exact absurd rfl h
  | cons x rest ih =>
    intro _ hsep
    cases rest with
    | nil => exact splitSep_of_not_mem sep x (hsep x (List.mem_cons_self x []))
    | cons y rest2 =>
      show splitSep sep (x ++ sep :: joinSep sep (y :: rest2)) = x :: y :: rest2
      rw [splitSep_append sep x _ (hsep x (List.mem_cons_self x (y :: rest2)))]
      rw [ih (by simp) (fun seg h => hsep seg (List.mem_cons_of_mem x h))]

/-- The head of a separator-join is the head of its non-empty first segment. -/
theorem joinSep_head? (sep : Char) (x : Str) (rest : List Str) (hx : x ≠ []) :
    (joinSep sep (x :: rest)).head? = x.head? := by
  cases rest with
  | nil => rfl
  | cons y rest2 =>
    show (x ++ sep :: joinSep sep (y :: rest2)).head? = x.head?
    exact List.head?_append_of_ne_nil _ hx

/-- The last element of a separator-join is the last of one of its non-empty
segments. -/
theorem joinSep_getLast? (sep : Char) :
    ∀ (l : List Str), l ≠ [] → (∀ seg ∈ l, seg ≠ []) →
      ∃ x ∈ l, (joinSep sep l).getLast? = x.getLast? ∧ x ≠ [] := by
  intro l
  induction l with
  | nil => intro h; exact absurd rfl h
  | cons x rest ih =>
    intro _ hne
    cases rest with
    | nil =>
      exact ⟨x, List.mem_cons_self x [], rfl, hne x (List.mem_cons_self x [])⟩
    | cons y rest2 =>
      obtain ⟨z, hz, hzl, hzne⟩ := ih (by simp)
        (fun seg h => hne seg (List.mem_cons_of_mem x h))
      refine ⟨z, List.mem_cons_of_mem x hz, ?_, hzne⟩
      show (x ++ sep :: joinSep sep (y :: rest2)).getLast? = z.getLast?
      have hj : joinSep sep (y :: rest2) ≠ [] := by
        intro hnil
        rw [hnil] at hzl
        have hsome := List.getLast?_isSome.mpr hzne
        rw [← hzl] at hsome
        simp at hsome
      rw [List.getLast?_append_of_ne_nil x
        (show (sep :: joinSep sep (y :: rest2) : Str) ≠ [] by simp)]
      rw [show (sep :: joinSep sep (y :: rest2) : Str) = [sep] ++ joinSep sep (y :: rest2)
        from rfl]
      rw [List.getLast?_append_of_ne_nil [sep] hj]
      exact hzl

/-- Every element of a clean stack is non-empty, separator-free and not
`"."`. -/
theorem cleanStack_elem (out : List Str) (h : CleanStack out) :
    ∀ seg ∈ out, seg ≠ [] ∧ '/' ∉ seg ∧ seg ≠ ['.'] := by
  obtain ⟨k, segs, rfl, hsegs⟩ := h
  intro seg hseg
  rcases List.mem_append.mp hseg with h1 | h2
  · rw [List.eq_of_mem_replicate h1]
    refine ⟨by decide, by decide, by decide⟩
  · obtain ⟨h1', h2', _, h4'⟩ := hsegs seg h2
    exact ⟨h1', h4', h2'⟩

/-- The `cleanSegs` loop preserves the stack invariant for any input whose
elements are separator-free. -/
theorem cleanSegs_stack (rooted : Bool) :
    ∀ (segsIn : List Str), (∀ seg ∈ segsIn, '/' ∉ seg) →
    ∀ out, CleanStack out → CleanStack (cleanSegs rooted segsIn out) := by
  intro segsIn
  induction segsIn with
  | nil => intro _ out hout; exact hout
  | cons seg rest ih =>
    intro hin out hout
    have hrest : ∀ s2 ∈ rest, '/' ∉ s2 := fun s2 h => hin s2 (List.mem_cons_of_mem _ h)
    have hseg : '/' ∉ seg := hin seg (List.mem_cons_self seg rest)
    unfold cleanSegs
    split
    · exact ih hrest out hout
    · split
      · split
        next hpop =>
          apply ih hrest
          obtain ⟨k, segs, rfl, hsegs⟩ := hout
          cases hsegs2 : segs with
          | nil =>
            exfalso
            subst hsegs2
            obtain ⟨hne, hlast⟩ := hpop
            simp only [List.append_nil] at hne hlast
            cases k with
            | zero => exact hne rfl
            | succ k2 =>
              apply hlast
              rw [List.replicate_succ']
              rw [List.getLast?_append_of_ne_nil _ (by simp)]
              rfl
          | cons s2 ss =>
            subst hsegs2
            rw [List.dropLast_append_of_ne_nil _ (by simp)]
            exact ⟨k, (s2 :: ss).dropLast, rfl,
              fun s3 h3 => hsegs s3 (List.mem_of_mem_dropLast h3)⟩
        next hnopop =>
          split
          · exact ih hrest out hout
          · apply ih hrest
            obtain ⟨k, segs, rfl, hsegs⟩ := hout
            have hsegs_nil : segs = [] := by
              cases hsegs2 : segs with
              | nil => rfl
              | cons s2 ss =>
                exfalso
                apply hnopop
                subst hsegs2
                refine ⟨by simp, ?_⟩
                rw [List.getLast?_append_of_ne_nil _ (by simp)]
                intro hlast
                have hmem : dotdot ∈ s2 :: ss := List.mem_of_mem_getLast? hlast
                exact (hsegs dotdot hmem).2.2.1 rfl
            subst hsegs_nil
            refine ⟨k + 1, [], ?_, by simp⟩
            simp [List.replicate_succ']
      · apply ih hrest
        obtain ⟨k, segs, rfl, hsegs⟩ := hout
        rename_i hne1 hne2
        refine ⟨k, segs ++ [seg], by rw [List.append_assoc], ?_⟩
        intro s3 h3
        rcases List.mem_append.mp h3 with h4 | h5
        · exact hsegs s3 h4
        · rw [List.mem_singleton.mp h5]
          refine ⟨?_, ?_, ?_, hseg⟩
          · intro hnil
            exact hne1 (Or.inl hnil)
          · intro hdot
            exact hne1 (Or.inr hdot)
          · intro hdd
            exact hne2 hdd

/-- The non-empty-input case of `pathClean`, with the lets expanded. -/
theorem pathClean_eq (s : Str) (hs : s ≠ []) :
    pathClean s =
      (if ((if decide (s.head? = some '/') then ['/'] else []) ++
          joinSep '/' (cleanSegs (decide (s.head? = some '/')) (splitSep '/' s) [])) = []
        then ['.']
        else (if decide (s.head? = some '/') then ['/'] else []) ++
          joinSep '/' (cleanSegs (decide (s.head? = some '/')) (splitSep '/' s) [])) := by
  unfold pathClean
  rw [if_neg hs]

/-- Dropping leading separators does nothing to a string that does not start
with one. -/
theorem dropWhile_sep_eq_self (l : Str) (h : l.head? ≠ some '/') :
    l.dropWhile (· = '/') = l := by
  cases l with
  | nil => rfl
  | cons a t =>
    have ha : ¬(a = '/') := fun heq => h (by simp [heq])
    simp [List.dropWhile_cons, ha]

/-- From the expanded `pathClean` shape to the `cleanPath` value: a non-empty
clean stack joins to the normalized path. -/
theorem cleanPath_structure_aux (s : Str) (rootedB : Bool) (O : List Str)
    (hstack : CleanStack O) (hO : O ≠ [])
    (hpc : pathClean s =
      (if ((if rootedB then ['/'] else []) ++ joinSep '/' O) = [] then ['.']
        else (if rootedB then ['/'] else []) ++ joinSep '/' O)) :
    cleanPath s = joinSep '/' O := by
  obtain ⟨oh, ot, rfl⟩ : ∃ oh ot, O = oh :: ot := by
    cases O with
    | nil => exact absurd rfl hO
    | cons a b => exact ⟨a, b, rfl⟩
  obtain ⟨hohne, hohsep, _⟩ :=
    cleanStack_elem _ hstack oh (List.mem_cons_self oh ot)
  obtain ⟨c0, ct, rfl⟩ : ∃ c0 ct, oh = c0 :: ct := by
    cases oh with
    | nil => exact absurd rfl hohne
    | cons a b => exact ⟨a, b, rfl⟩
  have hc0 : c0 ≠ '/' := fun h => hohsep (h ▸ List.mem_cons_self c0 ct)
  have hjoinhead : (joinSep '/' ((c0 :: ct) :: ot)).head? = some c0 := by
    rw [joinSep_head? '/' _ ot hohne]
    rfl
  obtain ⟨jt, hjt⟩ : ∃ jt, joinSep '/' ((c0 :: ct) :: ot) = c0 :: jt := by
    cases hj : joinSep '/' ((c0 :: ct) :: ot) with
    | nil => rw [hj] at hjoinhead; cases hjoinhead
    | cons a b =>
      rw [hj] at hjoinhead
      exact ⟨b, by rw [List.head?_cons] at hjoinhead; rw [Option.some_inj.mp hjoinhead]⟩
  have hdot : joinSep '/' ((c0 :: ct) :: ot) ≠ ['.'] := by
    intro h1
    have hrt : splitSep '/' (joinSep '/' ((c0 :: ct) :: ot)) = (c0 :: ct) :: ot :=
      splitSep_joinSep '/' _ hO
        (fun seg h => (cleanStack_elem _ hstack seg h).2.1)
    rw [h1] at hrt
    have hsingle : splitSep '/' ['.'] = [['.']] := rfl
    rw [hsingle] at hrt
    have hmem : (['.'] : Str) ∈ (c0 :: ct) :: ot := by rw [← hrt]; exact List.mem_cons_self _ _
    exact (cleanStack_elem _ hstack _ hmem).2.2 rfl
  cases rootedB with
  | true =>
    have hpc2 : pathClean s = '/' :: joinSep '/' ((c0 :: ct) :: ot) := by
      rw [hpc]
      simp
    unfold cleanPath
    dsimp only
    rw [hpc2, hjt]
    have hcond : ¬((('/' :: c0 :: jt) : Str) = ['.'] ∨ (('/' :: c0 :: jt) : Str) = ['/']) := by
      simp
    rw [if_neg hcond]
    show List.dropWhile (fun c => decide (c = '/')) ('/' :: c0 :: jt) = c0 :: jt
    rw [List.dropWhile_cons]
    simp only [decide_eq_true_eq, if_pos rfl]
    rw [List.dropWhile_cons]
    simp [hc0]
  | false =>
    have hjoin_ne : joinSep '/' ((c0 :: ct) :: ot) ≠ [] := by rw [hjt]; simp
    have hpc2 : pathClean s = joinSep '/' ((c0 :: ct) :: ot) := by
      rw [hpc]
      simp [hjoin_ne]
    unfold cleanPath
    dsimp only
    rw [hpc2, hjt]
    have hslash : ((c0 :: jt) : Str) ≠ ['/'] := by
      intro h1
      exact hc0 (by injection h1)
    have hcond : ¬(((c0 :: jt) : Str) = ['.'] ∨ ((c0 :: jt) : Str) = ['/']) := by
      rw [hjt] at hdot
      push_neg
      exact ⟨hdot, hslash⟩
    rw [if_neg hcond]
    exact dropWhile_sep_eq_self _ (by simp [hc0])

/-- Every normalized path is empty (the root) or the join of a clean stack. -/
theorem cleanPath_structure (s : Str) :
    cleanPath s = [] ∨
    ∃ O, CleanStack O ∧ O ≠ [] ∧ cleanPath s = joinSep '/' O := by
  by_cases hs : s = []
  · left; subst hs; rfl
  · have hstack : CleanStack (cleanSegs (decide (s.head? = some '/')) (splitSep '/' s) []) :=
      cleanSegs_stack _ (splitSep '/' s) (splitSep_not_mem '/' s) [] ⟨0, [], rfl, by simp⟩
    have hpc := pathClean_eq s hs
    by_cases hO : cleanSegs (decide (s.head? = some '/')) (splitSep '/' s) [] = []
    · left
      rw [hO] at hpc
      cases hr : decide (s.head? = some '/') with
      | true =>
        rw [hr] at hpc
        have hpc2 : pathClean s = ['/'] := by
          rw [hpc]
          simp [joinSep]
        unfold cleanPath
        dsimp only
        rw [hpc2]
        simp
      | false =>
        rw [hr] at hpc
        have hpc2 : pathClean s = ['.'] := by
          rw [hpc]
          simp [joinSep]
        unfold cleanPath
        dsimp only
        rw [hpc2]
        simp
    · right
      exact ⟨_, hstack, hO, cleanPath_structure_aux s _ _ hstack hO hpc⟩

/-- Counterexample to C8: normalizing `".."` yields `".."`, whose single
segment is a `".."` segment, so the claim "the normalized form contains no
`..` segments" fails. -/
theorem cleanPath_dotdot_counterexample :
    cleanPath dotdot = dotdot ∧ dotdot ∈ splitSep '/' (cleanPath dotdot) ∧
      cleanPath dotdot ≠ [] := by
  refine ⟨rfl, ?_, by decide⟩
  decide

/-- C8 as amended: for every input, the normalized path is either empty (the
root) or splits on the separator into a leading run of `".."` segments
followed by segments that are non-empty, not `"."`, not `".."` and
separator-free; in particular it has no empty or `"."` segments and neither
starts nor ends with a separator.  (As `cleanPath` is a total function, it is
deterministic, performs no I/O and never fails.) -/
theorem cleanPath_normalform (s : Str) :
    cleanPath s = [] ∨
    ((∃ k segs, splitSep '/' (cleanPath s) = List.replicate k dotdot ++ segs ∧
        ∀ seg ∈ segs, cleanElem seg) ∧
      (∀ seg ∈ splitSep '/' (cleanPath s), seg ≠ [] ∧ seg ≠ ['.']) ∧
      (cleanPath s).head? ≠ some '/' ∧ (cleanPath s).getLast? ≠ some '/') := by
  rcases cleanPath_structure s with h | ⟨O, hstack, hO, heq⟩
  · left; exact h
  · right
    have hsepfree : ∀ seg ∈ O, '/' ∉ seg :=
      fun seg h => (cleanStack_elem O hstack seg h).2.1
    have hsplit : splitSep '/' (cleanPath s) = O := by
      rw [heq]
      exact splitSep_joinSep '/' O hO hsepfree
    obtain ⟨k, segs, hOeq, hsegs⟩ := id hstack
    refine ⟨⟨k, segs, by rw [hsplit, hOeq], hsegs⟩, ?_, ?_, ?_⟩
    · rw [hsplit]
      intro seg hseg
      obtain ⟨h1, _, h3⟩ := cleanStack_elem O hstack seg hseg
      exact ⟨h1, h3⟩
    · obtain ⟨oh, ot, rfl⟩ : ∃ oh ot, O = oh :: ot := by
        cases O with
        | nil => exact absurd rfl hO
        | cons a b => exact ⟨a, b, rfl⟩
      have hohne : oh ≠ [] :=
        (cleanStack_elem _ hstack oh (List.mem_cons_self oh ot)).1
      have hohsep : '/' ∉ oh :=
        (cleanStack_elem _ hstack oh (List.mem_cons_self oh ot)).2.1
      rw [heq, joinSep_head? '/' oh ot hohne]
      obtain ⟨c0, ct, rfl⟩ : ∃ c0 ct, oh = c0 :: ct := by
        cases oh with
        | nil => exact absurd rfl hohne
        | cons a b => exact ⟨a, b, rfl⟩
      have hc0 : c0 ≠ '/' := fun h => hohsep (h ▸ List.mem_cons_self c0 ct)
      simp [hc0]
    · obtain ⟨x, hx, hlast, hxne⟩ := joinSep_getLast? '/' O hO
        (fun seg h => (cleanStack_elem O hstack seg h).1)
      rw [heq, hlast]
      intro habs
      exact (cleanStack_elem O hstack x hx).2.1 (List.mem_of_mem_getLast? habs)

/-! ## C2 -/

/-- `strLt` is irreflexive. -/
theorem strLt_irrefl (a : Str) : strLt a a = false := by
  induction a with
  | nil => rfl
  | cons c cs ih => simp [strLt, ih]

/-- `strLt` is transitive. -/
theorem strLt_trans : ∀ {a b c : Str},
    strLt a b = true → strLt b c = true → strLt a c = true := by
  intro a
  induction a with
  | nil =>
    intro b c hab hbc
    cases b with
    | nil => cases hab
    | cons y ys =>
      cases c with
      | nil => cases hbc
      | cons z zs => rfl
  | cons x xs ih =>
    intro b c hab hbc
    cases b with
    | nil => cases hab
    | cons y ys =>
      cases c with
      | nil => cases hbc
      | cons z zs =>
        simp only [strLt] at hab hbc ⊢
        by_cases hxy : x = y
        · subst hxy
          rw [if_pos rfl] at hab
          by_cases hxz : x = z
          · subst hxz
            rw [if_pos rfl] at hbc ⊢
            exact ih hab hbc
          · rw [if_neg hxz] at hbc ⊢
            exact hbc
        · rw [if_neg hxy] at hab
          have hlt1 : x < y := of_decide_eq_true hab
          by_cases hyz : y = z
          · subst hyz
            rw [if_neg hxy]
            exact decide_eq_true hlt1
          · rw [if_neg hyz] at hbc
            have hlt2 : y < z := of_decide_eq_true hbc
            have hlt3 : x < z := lt_trans hlt1 hlt2
            rw [if_neg (ne_of_lt hlt3)]
            exact decide_eq_true hlt3

/-- If neither string precedes the other, they are equal. -/
theorem strLt_connex : ∀ {a b : Str},
    strLt a b = false → strLt b a = false → a = b := by
  intro a
  induction a with
  | nil =>
    intro b hab _
    cases b with
    | nil => rfl
    | cons y ys => cases hab
  | cons x xs ih =>
    intro b hab hba
    cases b with
    | nil => cases hba
    | cons y ys =>
      simp only [strLt] at hab hba
      by_cases hxy : x = y
      · subst hxy
        rw [if_pos rfl] at hab hba
        rw [ih hab hba]
      · have hyx : ¬(y = x) := fun h2 => hxy h2.symm
        rw [if_neg hxy] at hab
        rw [if_neg hyx] at hba
        have hxley : x ≤ y := not_lt.mp (of_decide_eq_false hba)
        have hylex : y ≤ x := not_lt.mp (of_decide_eq_false hab)
        exact absurd (le_antisymm hxley hylex) hxy

/-- `strLt` is asymmetric. -/
theorem strLt_asymm {a b : Str} (h : strLt a b = true) : strLt b a = false := by
  cases hba : strLt b a with
  | false => rfl
  | true =>
    have := strLt_trans h hba
    rw [strLt_irrefl a] at this
    cases this

instance : IsTrans DirEntry entryRel := by
  refine ⟨fun a b c hab hbc => ?_⟩
  unfold entryRel at *
  cases hca : strLt c.name a.name with
  | false => rfl
  | true =>
    exfalso
    cases hb : strLt b.name c.name with
    | true =>
      have := strLt_trans hb hca
      rw [hab] at this
      cases this
    | false =>
      have heq : b.name = c.name := strLt_connex hb hbc
      rw [← heq] at hca
      rw [hab] at hca
      cases hca

instance : IsTotal DirEntry entryRel := by
  refine ⟨fun a b => ?_⟩
  unfold entryRel
  cases h : strLt b.name a.name with
  | false => exact Or.inl rfl
  | true => exact Or.inr (strLt_asymm h)

/-- Fold preservation of a state predicate. -/
theorem foldl_preserve {α β : Type} (P : β → Prop) (g : β → α → β)
    (hg : ∀ b a, P b → P (g b a)) : ∀ (l : List α) (b : β), P b → P (l.foldl g b) := by
  intro l
  induction l with
  | nil => intro b hb; exact hb
  | cons a l2 ih => intro b hb; exact ih (g b a) (hg b a hb)

/-- The common-prefix step preserves the accumulation invariants. -/
theorem stepCommonPfx_inv (f : Fs) (now : Time) (st : List Str × List DirEntry) (p : Str)
    (h : EntriesInv f st) : EntriesInv f (stepCommonPfx now st p) := by
  obtain ⟨h1, h2, h3⟩ := h
  unfold stepCommonPfx
  dsimp only
  split
  · exact ⟨h1, h2, h3⟩
  next hmem =>
    refine ⟨?_, ?_, ?_⟩
    · intro e he hfile
      rcases List.mem_append.mp he with ha | hb
      · exact h1 e ha hfile
      · rw [List.mem_singleton.mp hb] at hfile
        cases hfile
    · rw [List.filter_append]
      rw [List.map_append]
      have hone : (([DirEntry.dirE (directoryFileInfo (baseName p).1 now)].filter
          (fun e => !e.isFileEntry)).map DirEntry.name) = [(baseName p).1] := rfl
      rw [hone]
      rw [List.nodup_append]
      refine ⟨h2, List.nodup_singleton _, ?_⟩
      intro a ha hb
      rw [List.mem_singleton.mp hb] at ha
      obtain ⟨e, hemem, hename⟩ := List.mem_map.mp ha
      have hedir : e.isFileEntry = false := by
        have := List.of_mem_filter hemem
        simpa using this
      have := h3 e (List.mem_of_mem_filter hemem) hedir
      rw [hename] at this
      exact hmem this
    · intro e he hdir
      rcases List.mem_append.mp he with ha | hb
      · exact List.mem_cons_of_mem _ (h3 e ha hdir)
      · rw [List.mem_singleton.mp hb]
        exact List.mem_cons_self _ _

/-- The contents step preserves the accumulation invariants. -/
theorem stepContent_inv (f : Fs) (now : Time) (st : List Str × List DirEntry)
    (obj : S3Object) (h : EntriesInv f st) : EntriesInv f (stepContent f now st obj) := by
  obtain ⟨h1, h2, h3⟩ := h
  unfold stepContent
  dsimp only
  split
  · exact ⟨h1, h2, h3⟩
  next hkeep =>
    push_neg at hkeep
    obtain ⟨hne, hnsep, hnmarker⟩ := hkeep
    have hfile : ∀ (seen : List Str),
        (∀ n2 ∈ st.1, n2 ∈ seen) →
        EntriesInv f (seen, st.2 ++
          [DirEntry.fileE (regularFileInfo (baseName obj.key).1 obj.size
            (obj.lastModified.getD now))]) := by
      intro seen hseen
      refine ⟨?_, ?_, ?_⟩
      · intro e he hf
        rcases List.mem_append.mp he with ha | hb
        · exact h1 e ha hf
        · rw [List.mem_singleton.mp hb]
          exact ⟨hnmarker, hne, hnsep⟩
      · rw [List.filter_append]
        have hnilf : (([DirEntry.fileE (regularFileInfo (baseName obj.key).1 obj.size
            (obj.lastModified.getD now))] : List DirEntry).filter
              (fun e => !e.isFileEntry)) = [] := rfl
        rw [hnilf, List.append_nil]
        exact h2
      · intro e he hdir
        rcases List.mem_append.mp he with ha | hb
        · exact hseen e.name (h3 e ha hdir)
        · rw [List.mem_singleton.mp hb] at hdir
          cases hdir
    split
    · split
      · exact ⟨h1, h2, h3⟩
      · exact hfile _ (fun n2 hn2 => List.mem_cons_of_mem _ hn2)
    · exact hfile st.1 (fun n2 hn2 => hn2)

/-- A whole page preserves the accumulation invariants. -/
theorem processPage_inv (f : Fs) (now : Time) (st : List Str × List DirEntry)
    (page : ListResult) (h : EntriesInv f st) : EntriesInv f (processPage f now st page) := by
  unfold processPage
  exact foldl_preserve (EntriesInv f) (stepContent f now)
    (fun b a hb => stepContent_inv f now b a hb) page.contents _
    (foldl_preserve (EntriesInv f) (stepCommonPfx now)
      (fun b a hb => stepCommonPfx_inv f now b a hb) page.commonPrefixes st h)

/-- Steps only append entries, so membership in the accumulated entries is
preserved by a page. -/
theorem processPage_mem (f : Fs) (now : Time) (st : List Str × List DirEntry)
    (page : ListResult) (e : DirEntry) (h : e ∈ st.2) :
    e ∈ (processPage f now st page).2 := by
  unfold processPage
  apply foldl_preserve (fun st2 => e ∈ st2.2) (stepContent f now)
  · intro b a hb
    unfold stepContent
    dsimp only
    split
    · exact hb
    · split
      · split
        · exact hb
        · exact List.mem_append_left _ hb
      · exact List.mem_append_left _ hb
  · apply foldl_preserve (fun st2 => e ∈ st2.2) (stepCommonPfx now)
    · intro b a hb
      unfold stepCommonPfx
      dsimp only
      split
      · exact hb
      · exact List.mem_append_left _ hb
    · exact h

/-- A successful paginator run preserves the invariants and the accumulated
entries. -/
theorem readDirLoop_ok (f : Fs) (now : Time) :
    ∀ (pages : List (Except Transport ListResult)) (st res : List Str × List DirEntry),
      readDirLoop f now pages st = .ok res →
      (EntriesInv f st → EntriesInv f res) ∧ (∀ e ∈ st.2, e ∈ res.2) := by
  intro pages
  induction pages with
  | nil =>
    intro st res h
    have : st = res := by
      unfold readDirLoop at h
      exact Except.ok.inj h
    subst this
    exact ⟨fun h2 => h2, fun e he => he⟩
  | cons p rest ih =>
    intro st res h
    cases p with
    | error e => cases h
    | ok page =>
      have h2 : readDirLoop f now rest (processPage f now st page) = .ok res := h
      obtain ⟨hinv, hmem⟩ := ih (processPage f now st page) res h2
      exact ⟨fun hst => hinv (processPage_inv f now st page hst),
        fun e he => hmem e (processPage_mem f now st page e he)⟩

/-- In a sorted entry list in which every name is `"."` or follows `"."`,
an entry named `"."` comes first. -/
theorem sorted_head_dot (entries : List DirEntry)
    (hsorted : entries.Pairwise entryRel)
    (hmem : ∃ e ∈ entries, e.name = currentDirName)
    (hall : ∀ e ∈ entries, e.name = currentDirName ∨ strLt currentDirName e.name = true) :
    entries.head?.map DirEntry.name = some currentDirName := by
  cases entries with
  | nil =>
    obtain ⟨e, he, _⟩ := hmem
    cases he
  | cons x rest =>
    show some x.name = some currentDirName
    obtain ⟨e, he, hename⟩ := hmem
    rcases List.mem_cons.mp he with rfl | hrest
    · rw [hename]
    · have hrel : entryRel x e := (List.pairwise_cons.mp hsorted).1 e hrest
      unfold entryRel at hrel
      rw [hename] at hrel
      rcases hall x (List.mem_cons_self x rest) with h1 | h2
      · rw [h1]
      · rw [hrel] at h2
        cases h2

/-- C2 as amended: every successful ReadDir result is sorted by name; it
contains the synthetic `"."` directory entry unless it is the empty listing of
a missing directory; no file entry is named the marker filename, the empty
string or the separator; directory entries have pairwise-distinct names; and
the `"."` entry is first whenever every other name sorts after `"."`.  (A key
that does not end in the separator may duplicate the name of a common prefix,
a directory entry may be named like the marker, and an entry may sort before
`"."` — see the counterexample.) -/
theorem readDir_entries_invariants (f : Fs) (dirName : Str)
    (statResp : Except Transport ListResult) (pages : List (Except Transport ListResult))
    (now : Time) (entries : List DirEntry)
    (h : (f.readDirWithContext dirName statResp pages now).1 = .ok entries) :
    entries.Pairwise entryRel ∧
    (entries = [] ∨ ∃ e ∈ entries, e.name = currentDirName ∧ e.isDir = true) ∧
    (∀ e ∈ entries, e.isFileEntry = true →
      e.name ≠ f.directoryFile ∧ e.name ≠ [] ∧ e.name ≠ pathSeparator) ∧
    ((entries.filter (fun e => !e.isFileEntry)).map DirEntry.name).Nodup ∧
    ((∀ e ∈ entries, e.name = currentDirName ∨ strLt currentDirName e.name = true) →
      entries ≠ [] → entries.head?.map DirEntry.name = some currentDirName) := by
  unfold Fs.readDirWithContext at h
  dsimp only at h
  split at h
  · split at h
    · have : entries = [] := (Except.ok.inj h).symm
      subst this
      refine ⟨List.Pairwise.nil, Or.inl rfl, ?_, ?_, ?_⟩
      · intro e he; cases he
      · simp
      · intro _ hne; exact absurd rfl hne
    · cases h
  · split at h
    · cases h
    · split at h
      · cases h
      next res hloop =>
        have hentries : entries = sortEntries res.2 := (Except.ok.inj h).symm
        have hseedInv : EntriesInv f
            ([currentDirName, pathSeparator],
              [DirEntry.dirE (directoryFileInfo currentDirName now)]) := by
          refine ⟨?_, ?_, ?_⟩
          · intro e he hfile
            rw [List.mem_singleton.mp he] at hfile
            cases hfile
          · exact List.nodup_singleton _
          · intro e he _
            rw [List.mem_singleton.mp he]
            exact List.mem_cons_self _ _
        obtain ⟨hinv, hmem⟩ := readDirLoop_ok f now pages _ res hloop
        have hresInv := hinv hseedInv
        have hdot : DirEntry.dirE (directoryFileInfo currentDirName now) ∈ res.2 :=
          hmem _ (List.mem_cons_self _ _)
        have hperm : List.Perm (sortEntries res.2) res.2 :=
          List.perm_insertionSort entryRel res.2
        have hsorted : entries.Pairwise entryRel := by
          rw [hentries]
          exact List.sorted_insertionSort entryRel res.2
        have hdot2 : DirEntry.dirE (directoryFileInfo currentDirName now) ∈ entries := by
          rw [hentries]
          exact hperm.mem_iff.mpr hdot
        refine ⟨hsorted, ?_, ?_, ?_, ?_⟩
        · exact Or.inr ⟨_, hdot2, rfl, directoryFileInfo_isDir _ _⟩
        · intro e he hfile
          have : e ∈ res.2 := by
            rw [hentries] at he
            exact hperm.mem_iff.mp he
          exact hresInv.1 e this hfile
        · have hpermf : List.Perm (entries.filter (fun e => !e.isFileEntry))
              (res.2.filter (fun e => !e.isFileEntry)) := by
            rw [hentries]
            exact hperm.filter _
          have hpermm := hpermf.map DirEntry.name
          exact hpermm.nodup_iff.mpr hresInv.2.1
        · intro hall hne
          exact sorted_head_dot entries hsorted ⟨_, hdot2, rfl⟩ hall

/-- Counterexample to C2: listing a directory holding the object `"d/!"`, the
prefix `"d/!/"` and the prefix `"d/.keep/"` yields entries named
`"!", "!", ".", ".keep"` — the name `"!"` appears twice (the key was not
deduplicated against the equal common prefix), the first entry is not `"."`,
and an entry bears the sentinel marker filename. -/
theorem readDir_duplicate_name_counterexample :
    (((Fs.new ['b']).readDirWithContext ['d'] dirStatResp [c2Page] 0).1.map
        (fun es => es.map DirEntry.name)) =
      .ok [['!'], ['!'], ['.'], ['.', 'k', 'e', 'e', 'p']] ∧
    (['!'] : Str) ≠ currentDirName ∧
    (Fs.new ['b']).directoryFile = ['.', 'k', 'e', 'e', 'p'] := by
  refine ⟨rfl, by decide, rfl⟩

/-- Witness for C2's amended statement: a directory with children `a/`, `b/`
and the object `c` lists as exactly `[".", "a", "b", "c"]`, sorted, with `"."`
first. -/
theorem readDir_entries_invariants_witness :
    ((Fs.new ['b']).readDirWithContext ['d'] dirStatResp [c2GoodPage] 0).1 =
      .ok c2Entries ∧
    c2Entries.Pairwise entryRel ∧
    c2Entries.head?.map DirEntry.name = some currentDirName := by
  have h := readDir_entries_invariants (Fs.new ['b']) ['d'] dirStatResp [c2GoodPage] 0
    c2Entries (by rfl)
  exact ⟨by rfl, h.1, h.2.2.2.2 (by decide) (by decide)⟩

/-- Witness for C8's amended statement: normalizing `"a/./b"` yields a
non-root path with no leading or trailing separator. -/
theorem cleanPath_normalform_witness :
    cleanPath ['a', '/', '.', '/', 'b'] ≠ [] ∧
    (cleanPath ['a', '/', '.', '/', 'b']).head? ≠ some '/' ∧
    (cleanPath ['a', '/', '.', '/', 'b']).getLast? ≠ some '/' := by
  have h := cleanPath_normalform ['a', '/', '.', '/', 'b']
  rcases h with h | ⟨_, _, hh, hl⟩
  · exact absurd h (by decide)
  · exact ⟨by decide, hh, hl⟩

end S3fs
